import Mathlib

/-!
Shallow embedding of the `flip-lld` linker wrapper (`src/main.rs`) together
with proofs about its boundary computation, contiguous-section merging,
relink loop, argument rewriting and CLI parsing.

Machine integers (`u64`) are modelled as `Nat`.  The places where the code
performs a `u64` subtraction that may underflow are modelled with `sub64`,
the wrapping (release-mode) semantics of `u64` subtraction.  Additions of
section addresses and sizes are taken in `Nat` (the embedding assumes these
sums do not overflow `u64`); comparisons on `u64` values coincide with the
`Nat` comparisons used here.

The external linker is modelled as an oracle: for each re-invocation index
and candidate boundary it either fails, produces an unreadable output, or
produces a decoded list of section headers.
-/

namespace FlipLLD

/-- An ELF section header as consumed by the tool: resolved name (the string
table lookup may fail, hence `Option`), `sh_addr`, `sh_size`, `sh_addralign`,
and the `SHF_ALLOC` flag.  The flag is part of the ELF data model; whether
the code ever consults it is settled by the theorems below. -/
structure SH where
  name : Option String
  addr : Nat
  size : Nat
  align : Nat
  alloc : Bool
deriving DecidableEq, Repr

/-- A symbol-table entry: resolved name and `st_value`. -/
structure Sym where
  name : Option String
  value : Nat
deriving DecidableEq, Repr

/-- `struct Boundaries` from `main.rs` (the `HashSet<String>` of merged
section names is modelled as a duplicate-free `List String`). -/
structure Boundaries where
  merged_sections : List String
  address : Nat
  size : Nat
  stack_top : Nat
deriving DecidableEq, Repr

/-- Wrapping `u64` subtraction: the release-mode semantics of `a - b`. -/
def sub64 (a b : Nat) : Nat :=
  (a % 2 ^ 64 + (2 ^ 64 - b % 2 ^ 64)) % 2 ^ 64

/-- The 8-byte alignment step at the top of the relink loop
(`let rem = new_boundary % 8; if rem != 0 { new_boundary -= rem }`). -/
def alignDown8 (b : Nat) : Nat := b - b % 8

/-- `HashSet::insert` on the merged-name set (sets are duplicate-free lists). -/
def insertName (n : String) (ns : List String) : List String :=
  if n ∈ ns then ns else ns ++ [n]

/-- `get_o_value` from `main.rs`: scan the argument vector for `-o` and
return the argument following it; `none` models the usage error. -/
def get_o_value : List String → Option String
  | [] => none
  | arg :: rest =>
    if arg = "-o" then
      match rest with
      | [] => none
      | p :: _ => some p
    else get_o_value rest

/-- `Vec::insert(n, a)` (for `n ≤ length`; the embedding is total and the
out-of-range case is unreachable in the modelled runs). -/
def insertAt (n : Nat) (a : α) : List α → List α
  | l =>
    match n, l with
    | 0, l => a :: l
    | _ + 1, [] => []
    | m + 1, x :: xs => x :: insertAt m a xs

/-- One `--defsym` override definition, exactly as formatted by the code. -/
def defsymArg (sym : String) (v : Nat) : String :=
  "--defsym=" ++ sym ++ "=" ++ toString v

/-- The amended argument vector of a relink pass: `main.rs` first inserts the
`__ram_start__` definition at index 2, then the `__stack_top__` definition at
index 2 (displacing the former to index 3). -/
def mkNewArgs (args : List String) (b : Nat) : List String :=
  insertAt 2 (defsymArg "__stack_top__" b) (insertAt 2 (defsymArg "__ram_start__" b) args)

/-- The collision check of line 32: `stack_top <= address + size`. -/
def noCollision (bd : Boundaries) : Bool :=
  bd.stack_top ≤ bd.address + bd.size

/-- Result of one linker re-invocation: non-zero exit, unreadable or
unparsable output, or a decoded list of section headers. -/
inductive LinkOut where
  | fail : LinkOut
  | noDecode : LinkOut
  | elf : List SH → LinkOut
deriving DecidableEq, Repr

/-- Result of one pass of the sanity-check `for` loop over the decoded
sections.  Each constructor carries the remaining merged-name set after the
`HashSet::remove` calls performed so far. -/
inductive ScanRes where
  | fatal : List String → ScanRes
  | retry : Nat → List String → ScanRes
  | done : List String → ScanRes
deriving DecidableEq, Repr

/-- How a run of `main` after the first linker pass ends. -/
inductive Outcome where
  | success : Outcome
  | relinkFailure : Outcome
  | decodeError : Outcome
  | fatalInconsistency : Outcome
  | outOfFuel : Outcome
deriving DecidableEq, Repr

/-- Observable trace of the relink loop: the candidate boundary passed to
each re-invocation (via the override definitions), the final outcome, and
whether the output file was deleted. -/
structure RunTrace where
  candidates : List Nat
  outcome : Outcome
  deleted : Bool
deriving DecidableEq, Repr

/-- The sanity-check loop of lines 66-89: walk the decoded sections; a name
still in the merged set is removed and checked (`start < new_boundary` is
fatal, `end > stack_top` shifts the boundary and restarts the link loop). -/
def scan (b st : Nat) : List String → List SH → ScanRes
  | ms, [] => ScanRes.done ms
  | ms, s :: rest =>
    match s.name with
    | none => scan b st ms rest
    | some n =>
      if n ∈ ms then
        if s.addr < b then ScanRes.fatal (ms.erase n)
        else if st < s.addr + s.size then
          ScanRes.retry (s.addr + s.size - st) (ms.erase n)
        else scan b st (ms.erase n) rest
      else scan b st ms rest

/-- Prepend a candidate to a trace. -/
def consCand (c : Nat) (t : RunTrace) : RunTrace :=
  ⟨c :: t.candidates, t.outcome, t.deleted⟩

/-- The `'link: while !ok` loop (lines 35-105), fuelled because the source
has no iteration bound.  Arguments: fuel, current `new_boundary`, remaining
merged-name set, re-invocation index. -/
def runLoop (L : Nat → Nat → LinkOut) (st : Nat) : Nat → Nat → List String → Nat → RunTrace
  | 0, _, _, _ => ⟨[], Outcome.outOfFuel, false⟩
  | fuel + 1, b, ms, i =>
    match L i (alignDown8 b) with
    | LinkOut.fail => ⟨[alignDown8 b], Outcome.relinkFailure, false⟩
    | LinkOut.noDecode => ⟨[alignDown8 b], Outcome.decodeError, false⟩
    | LinkOut.elf secs =>
      match scan (alignDown8 b) st ms secs with
      | ScanRes.fatal _ => ⟨[alignDown8 b], Outcome.fatalInconsistency, true⟩
      | ScanRes.done ms' =>
        if ms'.isEmpty then ⟨[alignDown8 b], Outcome.success, false⟩
        else ⟨[alignDown8 b], Outcome.fatalInconsistency, true⟩
      | ScanRes.retry k ms' =>
        consCand (alignDown8 b) (runLoop L st fuel (sub64 (alignDown8 b) k) ms' (i + 1))

/-- Lines 32-35 and the loop: if `stack_top <= address + size` the loop body
never runs; otherwise the loop starts from `stack_top - size` (a wrapping
`u64` subtraction, computed unconditionally in the source). -/
def runMain (L : Nat → Nat → LinkOut) (bd : Boundaries) (fuel : Nat) : RunTrace :=
  if noCollision bd then ⟨[], Outcome.success, false⟩
  else runLoop L bd.stack_top fuel (sub64 bd.stack_top bd.size) bd.merged_sections 0

/-- Strictly decreasing list of naturals (as a boolean predicate). -/
def strDescB : List Nat → Bool
  | [] => true
  | [_] => true
  | a :: b :: rest => decide (b < a) && strDescB (b :: rest)

/-! ### `get_boundaries` (lines 163-256) -/

/-- The anchor test inside the `position` closure: the section is named
`.bss` or `.data`. -/
def isAnchor (s : SH) : Bool :=
  s.name == some ".bss" || s.name == some ".data"

/-- The merged-name set right after the anchor search: the anchor's name. -/
def seedNames (s : SH) : List String :=
  match s.name with
  | some n => [n]
  | none => []

/-- Stable insertion step of the by-address sort. -/
def insertByAddr (x : SH) : List SH → List SH
  | [] => [x]
  | y :: ys => if x.addr ≤ y.addr then x :: y :: ys else y :: insertByAddr x ys

/-- `elf.section_headers.sort_by_key(|sect| sect.sh_addr)` (a stable sort). -/
def sortByAddr : List SH → List SH
  | [] => []
  | x :: xs => insertByAddr x (sortByAddr xs)

/-- `sections.iter().position(..)` split into the prefix before the anchor,
the anchor itself, and the suffix after it. -/
def splitAtAnchor : List SH → Option (List SH × SH × List SH)
  | [] => none
  | s :: rest =>
    if isAnchor s then some ([], s, rest)
    else
      match splitAtAnchor rest with
      | none => none
      | some (p, a, q) => some (s :: p, a, q)

/-- `sections.iter().map(|sect| sect.sh_addralign).max().unwrap_or(1)`. -/
def maxAligns (l : List SH) : Nat :=
  match l.map SH.align with
  | [] => 1
  | a :: rest => rest.foldl max a

/-- The backward merge walk (lines 199-216) over the reversed prefix:
a predecessor merges when `address + size <= start` and the gap
`start - (address + size)` is at most `max_align`; a missing section name on
a merged predecessor is an error; the walk stops at the first
non-contiguous predecessor. -/
def backWalk (m : Nat) : List SH → Nat → Nat → List String → Except String (Nat × Nat × List String)
  | [], start, total, names => Except.ok (start, total, names)
  | s :: rest, start, total, names =>
    if s.addr + s.size ≤ start ∧ start - (s.addr + s.size) ≤ m then
      match s.name with
      | none => Except.error "no name information for section"
      | some n => backWalk m rest s.addr (total + s.size) (insertName n names)
    else Except.ok (start, total, names)

/-- The forward merge walk (lines 219-235) over the suffix after the anchor:
a successor merges when `start + total_size <= address` and the gap is at
most `max_align`. -/
def fwdWalk (m : Nat) : List SH → Nat → Nat → List String → Except String (Nat × List String)
  | [], _, total, names => Except.ok (total, names)
  | s :: rest, start, total, names =>
    if start + total ≤ s.addr ∧ s.addr - (start + total) ≤ m then
      match s.name with
      | none => Except.error "no name information for section"
      | some n => fwdWalk m rest start (total + s.size) (insertName n names)
    else Except.ok (total, names)

/-- The `__stack_top__` lookup (lines 237-248): value of the first symbol
with that name. -/
def symLookup : List Sym → Except String Nat
  | [] => Except.error "symbol `__stack_top__` not found"
  | s :: rest =>
    if s.name == some "__stack_top__" then Except.ok s.value else symLookup rest

/-- `get_boundaries` from `main.rs`: sort all section headers by address,
find the anchor, compute the global maximum alignment, merge backward then
forward, and look up `__stack_top__`. -/
def get_boundaries (shs : List SH) (syms : List Sym) : Except String Boundaries :=
  match splitAtAnchor (sortByAddr shs) with
  | none => Except.error "linker sections `.bss` and `.data` not found"
  | some (pre, anchor, post) =>
    match backWalk (maxAligns (sortByAddr shs)) pre.reverse anchor.addr anchor.size (seedNames anchor) with
    | Except.error e => Except.error e
    | Except.ok (start, total, names) =>
      match fwdWalk (maxAligns (sortByAddr shs)) post start total names with
      | Except.error e => Except.error e
      | Except.ok (total2, names2) =>
        match symLookup syms with
        | Except.error e => Except.error e
        | Except.ok st => Except.ok ⟨names2, start, total2, st⟩

/-! ### Merger written from the specification's wording (for refinement) -/

/-- Insert an optional name into the accepted set. -/
def insertName' (o : Option String) (ns : List String) : List String :=
  match o with
  | some n => insertName n ns
  | none => ns

/-- Backward walk as the specification words it: merge each predecessor
whose end lies within `max_align` below the current start. -/
def specBack (m : Nat) : List SH → Nat → Nat → List String → Nat × Nat × List String
  | [], start, total, names => (start, total, names)
  | s :: rest, start, total, names =>
    if s.addr + s.size ≤ start ∧ start - (s.addr + s.size) ≤ m then
      specBack m rest s.addr (total + s.size) (insertName' s.name names)
    else (start, total, names)

/-- Forward walk as the specification words it. -/
def specFwd (m : Nat) : List SH → Nat → Nat → List String → Nat × List String
  | [], _, total, names => (total, names)
  | s :: rest, start, total, names =>
    if start + total ≤ s.addr ∧ s.addr - (start + total) ≤ m then
      specFwd m rest start (total + s.size) (insertName' s.name names)
    else (total, names)

/-- The contiguous-region merger as described by the specification: seed
from the first section (in address order) named `.bss` or `.data`, take the
maximum alignment over all sections, walk backward, then walk forward. -/
def mergeSpec (shs : List SH) : Option (Nat × Nat × List String) :=
  match splitAtAnchor (sortByAddr shs) with
  | none => none
  | some (pre, anchor, post) =>
    match specBack (maxAligns (sortByAddr shs)) pre.reverse anchor.addr anchor.size (seedNames anchor) with
    | (start, total, names) =>
      match specFwd (maxAligns (sortByAddr shs)) post start total names with
      | (total2, names2) => some (start, total2, names2)

/-- Replace the `SHF_ALLOC` flag of a header by an arbitrary recolouring. -/
def setAlloc (f : SH → Bool) (s : SH) : SH :=
  ⟨s.name, s.addr, s.size, s.align, f s⟩

/-! ### Concrete inputs used by the scenario theorems -/

/-- First-pass layout of the specification's scenario:
`.data` at `[0x2000, 0x2100)`, `.bss` at `[0x2100, 0x2300)`, alignment 8. -/
def sampleSections : List SH :=
  [⟨some ".data", 0x2000, 0x100, 8, true⟩, ⟨some ".bss", 0x2100, 0x200, 8, true⟩]

/-- Symbol table with `__stack_top__ = 0x2400`. -/
def sampleSyms : List Sym := [⟨some "__stack_top__", 0x2400⟩]

/-- Relinker that places the merged region at `[0x2100, 0x2400)`. -/
def sampleLinker : Nat → Nat → LinkOut := fun _ _ =>
  LinkOut.elf [⟨some ".data", 0x2100, 0x100, 8, true⟩, ⟨some ".bss", 0x2200, 0x200, 8, true⟩]

/-- Boundaries of the sample layout, as `get_boundaries` computes them. -/
def sampleBd : Boundaries := ⟨[".data", ".bss"], 0x2000, 0x300, 0x2400⟩

/-- Relinker whose first output overshoots `stack_top` by more than the
candidate, making the `u64` shift subtraction wrap. -/
def wrapLinker : Nat → Nat → LinkOut := fun i _ =>
  if i = 0 then LinkOut.elf [⟨some ".bss", 0x2100, 0x10000, 8, true⟩] else LinkOut.elf []

/-- Boundaries whose merged set is just `.bss`. -/
def wrapBd : Boundaries := ⟨[".bss"], 0x2000, 0x300, 0x2400⟩

/-- Relinker whose first output triggers a recoverable retry after `.data`
was already validated and whose second output omits both merged sections. -/
def vanishLinker : Nat → Nat → LinkOut := fun i _ =>
  if i = 0 then
    LinkOut.elf [⟨some ".data", 0x2100, 0x100, 8, true⟩, ⟨some ".bss", 0x2200, 0x208, 8, true⟩]
  else LinkOut.elf []

/-- Boundaries whose merged set is `{.data, .bss}`, region `[0x2000, 0x2300)`. -/
def vanishBd : Boundaries := ⟨[".data", ".bss"], 0x2000, 0x300, 0x2400⟩

/-- Relinker that always exits with a non-zero status. -/
def failLinker : Nat → Nat → LinkOut := fun _ _ => LinkOut.fail

/-- Relinker whose output omits every section (so a merged name vanishes). -/
def omitLinker : Nat → Nat → LinkOut := fun _ _ => LinkOut.elf []

/-- Relinker that always places `.bss` exactly at the requested candidate. -/
def trackingLinker : Nat → Nat → LinkOut := fun _ c =>
  LinkOut.elf [⟨some ".bss", c, 0x100, 8, true⟩]

/-- Section list containing a non-allocatable `.debug_info` header directly
after `.bss`. -/
def debugSections : List SH :=
  [⟨some ".bss", 0x2000, 0x100, 4, true⟩, ⟨some ".debug_info", 0x2100, 0x10, 1, false⟩]

/-- Symbol table for the `.debug_info` counterexample. -/
def debugSyms : List Sym := [⟨some "__stack_top__", 0x2400⟩]

/-! ### Helper lemmas -/

theorem sub64_eq_sub {a b : Nat} (ha : a < 2 ^ 64) (hba : b ≤ a) : sub64 a b = a - b := by
  have hp : (2 : Nat) ^ 64 = 18446744073709551616 := by norm_num
  unfold sub64
  rw [hp] at ha ⊢
  rw [Nat.mod_eq_of_lt ha, Nat.mod_eq_of_lt (Nat.lt_of_le_of_lt hba ha)]
  have h1 : a + (18446744073709551616 - b) = (a - b) + 18446744073709551616 := by omega
  rw [h1, Nat.add_mod_right, Nat.mod_eq_of_lt (by omega)]

theorem alignDown8_le (b : Nat) : alignDown8 b ≤ b := Nat.sub_le _ _

theorem alignDown8_mod (b : Nat) : alignDown8 b % 8 = 0 := by
  unfold alignDown8
  omega

theorem sub64_lt (a b : Nat) : sub64 a b < 2 ^ 64 :=
  Nat.mod_lt _ (by norm_num)

theorem strDescB_cons {c : Nat} {t : List Nat} (ht : strDescB t = true)
    (hall : ∀ x ∈ t, x < c) : strDescB (c :: t) = true := by
  cases t with
  | nil => rfl
  | cons x xs =>
    have hx : x < c := hall x (List.mem_cons_self _ _)
    simp [strDescB, hx, ht]

theorem insertByAddr_perm (x : SH) : ∀ l : List SH, List.Perm (insertByAddr x l) (x :: l) := by
  intro l
  induction l with
  | nil => exact List.Perm.refl _
  | cons y ys ih =>
    simp only [insertByAddr]
    split
    · exact List.Perm.refl _
    · exact (List.Perm.cons y ih).trans (List.Perm.swap x y ys)

theorem sortByAddr_perm : ∀ l : List SH, List.Perm (sortByAddr l) l := by
  intro l
  induction l with
  | nil => exact List.Perm.refl _
  | cons x xs ih =>
    simp only [sortByAddr]
    exact (insertByAddr_perm x (sortByAddr xs)).trans (List.Perm.cons x ih)

theorem splitAtAnchor_sound : ∀ (l pre : List SH) (a : SH) (post : List SH),
    splitAtAnchor l = some (pre, a, post) →
    l = pre ++ a :: post ∧ isAnchor a = true ∧ ∀ s ∈ pre, isAnchor s = false := by
  intro l
  induction l with
  | nil =>
    intro pre a post h
    simp [splitAtAnchor] at h
  | cons s rest ih =>
    intro pre a post h
    simp only [splitAtAnchor] at h
    split at h
    · rename_i hanch
      simp only [Option.some.injEq, Prod.mk.injEq] at h
      obtain ⟨h1, h2, h3⟩ := h
      subst h1; subst h2; subst h3
      refine ⟨rfl, hanch, ?_⟩
      intro s' hs'
      simp at hs'
    · rename_i hanch
      split at h
      · simp at h
      · rename_i p a' q hsplit
        simp only [Option.some.injEq, Prod.mk.injEq] at h
        obtain ⟨h1, h2, h3⟩ := h
        subst h1; subst h2; subst h3
        obtain ⟨hl, hanc, hpre⟩ := ih p a' q hsplit
        refine ⟨by rw [hl]; rfl, hanc, ?_⟩
        intro s' hs'
        rcases List.mem_cons.mp hs' with h4 | h4
        · subst h4
          exact Bool.not_eq_true _ ▸ (by simpa using hanch)
        · exact hpre s' h4

theorem backWalk_toSpec (m : Nat) : ∀ (l : List SH) (start total : Nat) (names : List String)
    (r : Nat × Nat × List String), backWalk m l start total names = Except.ok r →
    specBack m l start total names = r := by
  intro l
  induction l with
  | nil =>
    intro start total names r h
    simp only [backWalk, Except.ok.injEq] at h
    simp [specBack, h]
  | cons s rest ih =>
    intro start total names r h
    simp only [backWalk] at h
    split at h
    · rename_i hcond
      split at h
      · simp at h
      · rename_i n hname
        simp only [specBack, if_pos hcond, hname, insertName']
        exact ih _ _ _ _ h
    · rename_i hcond
      simp only [Except.ok.injEq] at h
      simp only [specBack]
      rw [if_neg hcond]
      exact h

theorem fwdWalk_toSpec (m : Nat) : ∀ (l : List SH) (start total : Nat) (names : List String)
    (r : Nat × List String), fwdWalk m l start total names = Except.ok r →
    specFwd m l start total names = r := by
  intro l
  induction l with
  | nil =>
    intro start total names r h
    simp only [fwdWalk, Except.ok.injEq] at h
    simp [specFwd, h]
  | cons s rest ih =>
    intro start total names r h
    simp only [fwdWalk] at h
    split at h
    · rename_i hcond
      split at h
      · simp at h
      · rename_i n hname
        simp only [specFwd, if_pos hcond, hname, insertName']
        exact ih _ _ _ _ h
    · rename_i hcond
      simp only [Except.ok.injEq] at h
      simp only [specFwd]
      rw [if_neg hcond]
      exact h

theorem foldl_max_init_le : ∀ (l : List Nat) (a : Nat), a ≤ l.foldl max a := by
  intro l
  induction l with
  | nil => intro a; exact le_refl a
  | cons x xs ih =>
    intro a
    exact le_trans (le_max_left a x) (ih (max a x))

theorem foldl_max_mem_le : ∀ (l : List Nat) (a x : Nat), x ∈ l → x ≤ l.foldl max a := by
  intro l
  induction l with
  | nil =>
    intro a x hx
    simp at hx
  | cons y ys ih =>
    intro a x hx
    rcases List.mem_cons.mp hx with h | h
    · subst h
      exact le_trans (le_max_right a x) (foldl_max_init_le ys (max a x))
    · exact ih (max a y) x h

theorem foldl_max_attained : ∀ (l : List Nat) (a : Nat),
    l.foldl max a = a ∨ l.foldl max a ∈ l := by
  intro l
  induction l with
  | nil => intro a; exact Or.inl rfl
  | cons y ys ih =>
    intro a
    rw [List.foldl_cons]
    rcases ih (max a y) with h | h
    · rcases Nat.le_total a y with hle | hle
      · right
        rw [h, max_eq_right hle]
        exact List.mem_cons_self _ _
      · left
        rw [h, max_eq_left hle]
    · right
      exact List.mem_cons_of_mem _ h

theorem maxAligns_le (l : List SH) : ∀ s ∈ l, s.align ≤ maxAligns l := by
  intro s hs
  cases l with
  | nil => simp at hs
  | cons t ts =>
    simp only [maxAligns, List.map_cons]
    rcases List.mem_cons.mp hs with h | h
    · subst h
      exact foldl_max_init_le _ _
    · exact foldl_max_mem_le _ _ _ (List.mem_map_of_mem SH.align h)

theorem maxAligns_attained (l : List SH) (hne : l ≠ []) : ∃ s ∈ l, maxAligns l = s.align := by
  cases l with
  | nil => exact absurd rfl hne
  | cons t ts =>
    simp only [maxAligns, List.map_cons]
    rcases foldl_max_attained (ts.map SH.align) t.align with h | h
    · exact ⟨t, List.mem_cons_self _ _, h⟩
    · obtain ⟨s, hs, he⟩ := List.mem_map.mp h
      exact ⟨s, List.mem_cons_of_mem _ hs, he.symm⟩

@[simp] theorem setAlloc_name (f : SH → Bool) (s : SH) : (setAlloc f s).name = s.name := rfl

@[simp] theorem setAlloc_addr (f : SH → Bool) (s : SH) : (setAlloc f s).addr = s.addr := rfl

@[simp] theorem setAlloc_size (f : SH → Bool) (s : SH) : (setAlloc f s).size = s.size := rfl

@[simp] theorem setAlloc_align (f : SH → Bool) (s : SH) : (setAlloc f s).align = s.align := rfl

theorem seedNames_setAlloc (f : SH → Bool) (s : SH) : seedNames (setAlloc f s) = seedNames s := rfl

theorem isAnchor_setAlloc (f : SH → Bool) (s : SH) : isAnchor (setAlloc f s) = isAnchor s := rfl

theorem insertByAddr_map (f : SH → Bool) (x : SH) :
    ∀ l : List SH, insertByAddr (setAlloc f x) (l.map (setAlloc f)) =
      (insertByAddr x l).map (setAlloc f) := by
  intro l
  induction l with
  | nil => rfl
  | cons y ys ih =>
    simp only [List.map_cons, insertByAddr, setAlloc_addr]
    split_ifs with hc
    · simp
    · simp [ih]

theorem sortByAddr_map (f : SH → Bool) :
    ∀ l : List SH, sortByAddr (l.map (setAlloc f)) = (sortByAddr l).map (setAlloc f) := by
  intro l
  induction l with
  | nil => rfl
  | cons x xs ih =>
    simp only [List.map_cons, sortByAddr, ih]
    exact insertByAddr_map f x (sortByAddr xs)

theorem splitAtAnchor_map (f : SH → Bool) :
    ∀ l : List SH, splitAtAnchor (l.map (setAlloc f)) =
      Option.map (fun t : List SH × SH × List SH =>
        (t.1.map (setAlloc f), setAlloc f t.2.1, t.2.2.map (setAlloc f))) (splitAtAnchor l) := by
  intro l
  induction l with
  | nil => rfl
  | cons s rest ih =>
    simp only [List.map_cons, splitAtAnchor, isAnchor_setAlloc]
    split_ifs with hc
    · rfl
    · rw [ih]
      cases splitAtAnchor rest with
      | none => rfl
      | some t =>
        obtain ⟨p, a, q⟩ := t
        rfl

theorem maxAligns_map (f : SH → Bool) (l : List SH) :
    maxAligns (l.map (setAlloc f)) = maxAligns l := by
  unfold maxAligns
  rw [List.map_map]
  have h : SH.align ∘ setAlloc f = SH.align := funext fun s => rfl
  rw [h]

theorem backWalk_map (f : SH → Bool) (m : Nat) :
    ∀ (l : List SH) (start total : Nat) (names : List String),
      backWalk m (l.map (setAlloc f)) start total names = backWalk m l start total names := by
  intro l
  induction l with
  | nil => intro start total names; rfl
  | cons s rest ih =>
    intro start total names
    simp only [List.map_cons, backWalk, setAlloc_addr, setAlloc_size, setAlloc_name]
    by_cases hc : s.addr + s.size ≤ start ∧ start - (s.addr + s.size) ≤ m
    · rw [if_pos hc, if_pos hc]
      split
      · rfl
      · exact ih _ _ _
    · rw [if_neg hc, if_neg hc]

theorem fwdWalk_map (f : SH → Bool) (m : Nat) :
    ∀ (l : List SH) (start total : Nat) (names : List String),
      fwdWalk m (l.map (setAlloc f)) start total names = fwdWalk m l start total names := by
  intro l
  induction l with
  | nil => intro start total names; rfl
  | cons s rest ih =>
    intro start total names
    simp only [List.map_cons, fwdWalk, setAlloc_addr, setAlloc_size, setAlloc_name]
    by_cases hc : start + total ≤ s.addr ∧ s.addr - (start + total) ≤ m
    · rw [if_pos hc, if_pos hc]
      split
      · rfl
      · exact ih _ _ _
    · rw [if_neg hc, if_neg hc]

theorem get_boundaries_map (f : SH → Bool) (shs : List SH) (syms : List Sym) :
    get_boundaries (shs.map (setAlloc f)) syms = get_boundaries shs syms := by
  unfold get_boundaries
  rw [sortByAddr_map, splitAtAnchor_map, maxAligns_map]
  generalize splitAtAnchor (sortByAddr shs) = r
  cases r with
  | none => rfl
  | some t =>
    obtain ⟨pre, anchor, post⟩ := t
    simp only [Option.map_some']
    rw [← List.map_reverse, backWalk_map]
    simp only [setAlloc_addr, setAlloc_size, seedNames_setAlloc, fwdWalk_map]

theorem scan_done_mem (b st : Nat) :
    ∀ (secs : List SH) (ms ms' : List String), scan b st ms secs = ScanRes.done ms' →
      ∀ n ∈ ms, n ∈ ms' ∨
        ∃ s ∈ secs, s.name = some n ∧ b ≤ s.addr ∧ s.addr + s.size ≤ st := by
  intro secs
  induction secs with
  | nil =>
    intro ms ms' h n hn
    simp only [scan, ScanRes.done.injEq] at h
    exact Or.inl (h ▸ hn)
  | cons s rest ih =>
    intro ms ms' h n hn
    simp only [scan] at h
    split at h
    · rcases ih ms ms' h n hn with h1 | ⟨s', hs', hx⟩
      · exact Or.inl h1
      · exact Or.inr ⟨s', List.mem_cons_of_mem _ hs', hx⟩
    · rename_i m hname
      split at h
      · rename_i hm
        split at h
        · exact absurd h (by simp)
        · rename_i ha
          split at h
          · exact absurd h (by simp)
          · rename_i he
            by_cases hnm : n = m
            · subst hnm
              exact Or.inr ⟨s, List.mem_cons_self _ _, hname,
                Nat.le_of_not_lt ha, Nat.le_of_not_lt he⟩
            · have hn' : n ∈ ms.erase m := (List.mem_erase_of_ne hnm).mpr hn
              rcases ih _ _ h n hn' with h1 | ⟨s', hs', hx⟩
              · exact Or.inl h1
              · exact Or.inr ⟨s', List.mem_cons_of_mem _ hs', hx⟩
      · rcases ih _ _ h n hn with h1 | ⟨s', hs', hx⟩
        · exact Or.inl h1
        · exact Or.inr ⟨s', List.mem_cons_of_mem _ hs', hx⟩

theorem scan_retry_mem (b st : Nat) :
    ∀ (secs : List SH) (ms ms' : List String) (k : Nat),
      scan b st ms secs = ScanRes.retry k ms' →
      ∀ n ∈ ms, n ∈ ms' ∨ ∃ s ∈ secs, s.name = some n ∧ b ≤ s.addr := by
  intro secs
  induction secs with
  | nil =>
    intro ms ms' k h n hn
    simp [scan] at h
  | cons s rest ih =>
    intro ms ms' k h n hn
    simp only [scan] at h
    split at h
    · rcases ih ms ms' k h n hn with h1 | ⟨s', hs', hx⟩
      · exact Or.inl h1
      · exact Or.inr ⟨s', List.mem_cons_of_mem _ hs', hx⟩
    · rename_i m hname
      split at h
      · rename_i hm
        split at h
        · exact absurd h (by simp)
        · rename_i ha
          split at h
          · simp only [ScanRes.retry.injEq] at h
            by_cases hnm : n = m
            · subst hnm
              exact Or.inr ⟨s, List.mem_cons_self _ _, hname, Nat.le_of_not_lt ha⟩
            · exact Or.inl (h.2 ▸ (List.mem_erase_of_ne hnm).mpr hn)
          · by_cases hnm : n = m
            · subst hnm
              rename_i he
              exact Or.inr ⟨s, List.mem_cons_self _ _, hname, Nat.le_of_not_lt ha⟩
            · have hn' : n ∈ ms.erase m := (List.mem_erase_of_ne hnm).mpr hn
              rcases ih _ _ _ h n hn' with h1 | ⟨s', hs', hx⟩
              · exact Or.inl h1
              · exact Or.inr ⟨s', List.mem_cons_of_mem _ hs', hx⟩
      · rcases ih _ _ _ h n hn with h1 | ⟨s', hs', hx⟩
        · exact Or.inl h1
        · exact Or.inr ⟨s', List.mem_cons_of_mem _ hs', hx⟩

theorem scan_retry_shift (b st : Nat) :
    ∀ (secs : List SH) (ms ms' : List String) (k : Nat),
      scan b st ms secs = ScanRes.retry k ms' →
      ∃ s ∈ secs, k = s.addr + s.size - st ∧ st < s.addr + s.size := by
  intro secs
  induction secs with
  | nil =>
    intro ms ms' k h
    simp [scan] at h
  | cons s rest ih =>
    intro ms ms' k h
    simp only [scan] at h
    split at h
    · obtain ⟨s', hs', hx⟩ := ih ms ms' k h
      exact ⟨s', List.mem_cons_of_mem _ hs', hx⟩
    · split at h
      · split at h
        · exact absurd h (by simp)
        · split at h
          · rename_i he
            simp only [ScanRes.retry.injEq] at h
            exact ⟨s, List.mem_cons_self _ _, h.1.symm, he⟩
          · obtain ⟨s', hs', hx⟩ := ih _ _ _ h
            exact ⟨s', List.mem_cons_of_mem _ hs', hx⟩
      · obtain ⟨s', hs', hx⟩ := ih _ _ _ h
        exact ⟨s', List.mem_cons_of_mem _ hs', hx⟩

theorem runLoop_deleted_iff (L : Nat → Nat → LinkOut) (st : Nat) :
    ∀ (fuel b : Nat) (ms : List String) (i : Nat),
      ((runLoop L st fuel b ms i).deleted = true ↔
        (runLoop L st fuel b ms i).outcome = Outcome.fatalInconsistency) := by
  intro fuel
  induction fuel with
  | zero => intro b ms i; simp [runLoop]
  | succ n ih =>
    intro b ms i
    simp only [runLoop]
    split
    · simp
    · simp
    · split
      · simp
      · split
        · simp
        · simp
      · simp only [consCand]
        exact ih _ _ _

theorem runLoop_mod8 (L : Nat → Nat → LinkOut) (st : Nat) :
    ∀ (fuel b : Nat) (ms : List String) (i c : Nat),
      c ∈ (runLoop L st fuel b ms i).candidates → c % 8 = 0 := by
  intro fuel
  induction fuel with
  | zero =>
    intro b ms i c hc
    simp [runLoop] at hc
  | succ n ih =>
    intro b ms i c hc
    simp only [runLoop] at hc
    split at hc
    · simp at hc; subst hc; exact alignDown8_mod b
    · simp at hc; subst hc; exact alignDown8_mod b
    · split at hc
      · simp at hc; subst hc; exact alignDown8_mod b
      · split at hc
        · simp at hc; subst hc; exact alignDown8_mod b
        · simp at hc; subst hc; exact alignDown8_mod b
      · simp only [consCand] at hc
        rcases List.mem_cons.mp hc with h | h
        · subst h; exact alignDown8_mod b
        · exact ih _ _ _ _ h

theorem runLoop_desc (L : Nat → Nat → LinkOut) (st : Nat)
    (hL : ∀ (j c : Nat) (secs : List SH), L j c = LinkOut.elf secs →
      ∀ s ∈ secs, s.addr + s.size ≤ st + c) :
    ∀ (fuel b : Nat) (ms : List String) (i : Nat), b < 2 ^ 64 →
      (∀ c ∈ (runLoop L st fuel b ms i).candidates, c ≤ alignDown8 b) ∧
      strDescB (runLoop L st fuel b ms i).candidates = true := by
  intro fuel
  induction fuel with
  | zero =>
    intro b ms i hb
    simp [runLoop, strDescB]
  | succ n ih =>
    intro b ms i hb
    simp only [runLoop]
    split
    · refine ⟨?_, rfl⟩
      intro c hc
      simp at hc; subst hc; exact le_refl _
    · refine ⟨?_, rfl⟩
      intro c hc
      simp at hc; subst hc; exact le_refl _
    · rename_i secs hE
      split
      · refine ⟨?_, rfl⟩
        intro c hc
        simp at hc; subst hc; exact le_refl _
      · split
        · refine ⟨?_, rfl⟩
          intro c hc
          simp at hc; subst hc; exact le_refl _
        · refine ⟨?_, rfl⟩
          intro c hc
          simp at hc; subst hc; exact le_refl _
      · rename_i k ms' hS
        obtain ⟨s, hs, hk, hlt⟩ := scan_retry_shift (alignDown8 b) st secs ms ms' k hS
        have hend := hL i (alignDown8 b) secs hE s hs
        have hlt64 : alignDown8 b < 2 ^ 64 := Nat.lt_of_le_of_lt (alignDown8_le b) hb
        obtain ⟨ihall, ihdesc⟩ := ih (sub64 (alignDown8 b) k) ms' (i + 1) (sub64_lt _ _)
        have hsub : sub64 (alignDown8 b) k = alignDown8 b - k :=
          sub64_eq_sub hlt64 (by omega)
        simp only [consCand]
        constructor
        · intro c hc
          rcases List.mem_cons.mp hc with h | h
          · subst h; exact le_refl _
          · have h1 := ihall c h
            have h3 := alignDown8_le (sub64 (alignDown8 b) k)
            rw [hsub] at h1 h3
            omega
        · apply strDescB_cons ihdesc
          intro x hx
          have h1 := ihall x hx
          have h3 := alignDown8_le (sub64 (alignDown8 b) k)
          rw [hsub] at h1 h3
          omega

theorem runLoop_success_mem (L : Nat → Nat → LinkOut) (st : Nat) :
    ∀ (fuel b : Nat) (ms : List String) (i : Nat),
      (runLoop L st fuel b ms i).outcome = Outcome.success →
      ∀ n ∈ ms, ∃ (j c : Nat) (secs : List SH) (s : SH),
        (runLoop L st fuel b ms i).candidates.get? j = some c ∧
        L (i + j) c = LinkOut.elf secs ∧ s ∈ secs ∧ s.name = some n ∧ c ≤ s.addr := by
  intro fuel
  induction fuel with
  | zero =>
    intro b ms i h
    simp [runLoop] at h
  | succ fl ih =>
    intro b ms i h n hn
    simp only [runLoop] at h ⊢
    split at h
    · simp at h
    · simp at h
    · rename_i secs hE
      split at h
      · simp at h
      · rename_i ms' hS
        split at h
        · rename_i hmt
          rcases scan_done_mem (alignDown8 b) st secs ms ms' hS n hn with h1 | ⟨s, hs, hname, hge, _⟩
          · rw [List.isEmpty_iff] at hmt
            rw [hmt] at h1
            simp at h1
          · refine ⟨0, alignDown8 b, secs, s, ?_, ?_, hs, hname, hge⟩
            · simp [hmt]
            · rw [Nat.add_zero]; exact hE
        · simp at h
      · rename_i k ms' hS
        simp only [consCand] at h ⊢
        rcases scan_retry_mem (alignDown8 b) st secs ms ms' k hS n hn with h1 | ⟨s, hs, hname, hge⟩
        · obtain ⟨j, c, secs', s', hg, hLc, hss, hnm, hcs⟩ :=
            ih (sub64 (alignDown8 b) k) ms' (i + 1) h n h1
          refine ⟨j + 1, c, secs', s', ?_, ?_, hss, hnm, hcs⟩
          · simpa using hg
          · have hi : i + (j + 1) = (i + 1) + j := by omega
            rw [hi]; exact hLc
        · refine ⟨0, alignDown8 b, secs, s, rfl, ?_, hs, hname, hge⟩
          rw [Nat.add_zero]; exact hE

theorem get_o_value_not_mem : ∀ args : List String, "-o" ∉ args → get_o_value args = none := by
  intro args h
  induction args with
  | nil => rfl
  | cons a rest ih =>
    have ha : ¬(a = "-o") := fun he => h (he ▸ List.mem_cons_self a rest)
    have hr : "-o" ∉ rest := fun hm => h (List.mem_cons_of_mem a hm)
    simp only [get_o_value, if_neg ha]
    exact ih hr

theorem get_o_value_found : ∀ (pre : List String) (v : String) (rest : List String),
    "-o" ∉ pre → get_o_value (pre ++ "-o" :: v :: rest) = some v := by
  intro pre v rest h
  induction pre with
  | nil => rfl
  | cons a p ih =>
    have ha : ¬(a = "-o") := fun he => h (he ▸ List.mem_cons_self a p)
    have hp : "-o" ∉ p := fun hm => h (List.mem_cons_of_mem a hm)
    simp only [List.cons_append, get_o_value, if_neg ha]
    exact ih hp

theorem get_o_value_trailing : ∀ pre : List String,
    "-o" ∉ pre → get_o_value (pre ++ ["-o"]) = none := by
  intro pre h
  induction pre with
  | nil => rfl
  | cons a p ih =>
    have ha : ¬(a = "-o") := fun he => h (he ▸ List.mem_cons_self a p)
    have hp : "-o" ∉ p := fun hm => h (List.mem_cons_of_mem a hm)
    simp only [List.cons_append, get_o_value, if_neg ha]
    exact ih hp

/-! ### Claim theorems -/

/-- C10: `get_o_value` returns the argument immediately following the first
occurrence of `-o` that has a following argument, and returns the usage
error (`none`) when `-o` is absent or appears only as the final argument. -/
theorem c10_get_o_value (args : List String) :
    ("-o" ∉ args → get_o_value args = none) ∧
    (∀ (pre : List String) (v : String) (rest : List String),
      args = pre ++ "-o" :: v :: rest → "-o" ∉ pre → get_o_value args = some v) ∧
    (∀ pre : List String, args = pre ++ ["-o"] → "-o" ∉ pre → get_o_value args = none) := by
  refine ⟨get_o_value_not_mem args, ?_, ?_⟩
  · intro pre v rest he hp
    rw [he]
    exact get_o_value_found pre v rest hp
  · intro pre he hp
    rw [he]
    exact get_o_value_trailing pre hp

/-- Witness for C10 at a concrete argument vector. -/
theorem c10_get_o_value_witness :
    get_o_value ["-flavor", "gnu", "-o", "out"] = some "out" :=
  (c10_get_o_value ["-flavor", "gnu", "-o", "out"]).2.1 ["-flavor", "gnu"] "out" [] rfl
    (by decide)

/-- C3: when `stack_top <= address + size` the relink loop body never runs:
no second linker invocation, no candidate is ever produced, nothing is
deleted and the run succeeds with the first-pass output in place. -/
theorem c3_one_pass (L : Nat → Nat → LinkOut) (bd : Boundaries) (fuel : Nat)
    (h : noCollision bd = true) :
    runMain L bd fuel = ⟨[], Outcome.success, false⟩ := by
  simp [runMain, h]

/-- Witness for C3 at a concrete layout (`stack_top = address + size`). -/
theorem c3_one_pass_witness :
    noCollision ⟨[".bss"], 0x2000, 0x400, 0x2400⟩ = true ∧
    runMain failLinker ⟨[".bss"], 0x2000, 0x400, 0x2400⟩ 3 = ⟨[], Outcome.success, false⟩ :=
  ⟨by decide, c3_one_pass failLinker ⟨[".bss"], 0x2000, 0x400, 0x2400⟩ 3 (by decide)⟩

/-- C5: the specification's scenario.  `get_boundaries` merges `.data` and
`.bss` into `[0x2000, 0x2300)`; the collision check fails (`0x2400 > 0x2300`);
one relink with candidate `0x2100` (already 8-aligned, both override symbols
bound to it, decimal 8448 in the argument strings) converges with no further
retries. -/
theorem c5_scenario :
    get_boundaries sampleSections sampleSyms = Except.ok sampleBd ∧
    noCollision sampleBd = false ∧
    runMain sampleLinker sampleBd 10 = ⟨[0x2100], Outcome.success, false⟩ ∧
    mkNewArgs ["-flavor", "gnu", "-o", "out"] 0x2100 =
      ["-flavor", "gnu", "--defsym=__stack_top__=8448", "--defsym=__ram_start__=8448",
        "-o", "out"] ∧
    0x2100 % 8 = 0 :=
  ⟨rfl, by decide, by decide, by decide, by decide⟩

/-- C7, counterexample: the override definitions are not inserted
immediately after the program name.  With the argument vector
`["-flavor", "gnu", "-o", "out"]` (the child's `argv[1..]`), the two
elements directly after the program name are the original `-flavor gnu`,
and the definitions sit at indices 2 and 3. -/
theorem c7_counterexample :
    mkNewArgs ["-flavor", "gnu", "-o", "out"] 8448 =
      ["-flavor", "gnu", "--defsym=__stack_top__=8448", "--defsym=__ram_start__=8448",
        "-o", "out"] ∧
    (mkNewArgs ["-flavor", "gnu", "-o", "out"] 8448).take 2 ≠
      [defsymArg "__stack_top__" 8448, defsymArg "__ram_start__" 8448] ∧
    (mkNewArgs ["-flavor", "gnu", "-o", "out"] 8448).take 2 = ["-flavor", "gnu"] :=
  ⟨by decide, by decide, by decide⟩

/-- C7, amended: each relink pass uses the original arguments plus exactly
two override definitions, `__stack_top__` and `__ram_start__`, both bound to
the same candidate, inserted at index 2 of the argument vector (directly
after the first two original linker arguments). -/
theorem c7_amended (args : List String) (b : Nat) (h : 2 ≤ args.length) :
    mkNewArgs args b =
      args.take 2 ++ [defsymArg "__stack_top__" b, defsymArg "__ram_start__" b] ++
        args.drop 2 ∧
    (mkNewArgs args b).length = args.length + 2 := by
  match args, h with
  | a0 :: a1 :: rest, _ =>
    constructor
    · simp [mkNewArgs, insertAt]
    · simp [mkNewArgs, insertAt]

/-- Witness for C7 (amended) at a concrete argument vector. -/
theorem c7_amended_witness :
    mkNewArgs ["-flavor", "gnu", "-o", "out"] 33 =
      ["-flavor", "gnu"] ++ [defsymArg "__stack_top__" 33, defsymArg "__ram_start__" 33] ++
        ["-o", "out"] ∧
    (mkNewArgs ["-flavor", "gnu", "-o", "out"] 33).length = 6 :=
  c7_amended ["-flavor", "gnu", "-o", "out"] 33 (by decide)

/-- C9: the computation `new_boundary = stack_top - size` on line 33 is an
unconditional `u64` subtraction.  Whenever `size > stack_top` it underflows
(wrapping in release builds, as `sub64` models); this can happen even when
the no-collision condition holds and the loop body never runs, so a total
embedding of `main` is only faithful to debug builds under the precondition
`size ≤ stack_top`. -/
theorem c9_underflow :
    (∀ bd : Boundaries, bd.stack_top < bd.size → bd.size < 2 ^ 64 →
      sub64 bd.stack_top bd.size = 2 ^ 64 - (bd.size - bd.stack_top)) ∧
    noCollision ⟨[], 0, 100, 50⟩ = true ∧
    (⟨[], 0, 100, 50⟩ : Boundaries).stack_top < (⟨[], 0, 100, 50⟩ : Boundaries).size ∧
    runMain failLinker ⟨[], 0, 100, 50⟩ 5 = ⟨[], Outcome.success, false⟩ := by
  refine ⟨?_, by decide, by decide, by decide⟩
  intro bd h1 h2
  have hp : (2 : Nat) ^ 64 = 18446744073709551616 := by norm_num
  unfold sub64
  rw [hp] at h2 ⊢
  rw [Nat.mod_eq_of_lt (Nat.lt_trans h1 h2), Nat.mod_eq_of_lt h2]
  rw [Nat.mod_eq_of_lt (by omega)]
  omega

/-- Witness for C9: at `stack_top = 50`, `size = 100` the wrapped result is
`2 ^ 64 - 50`, not the mathematical difference. -/
theorem c9_underflow_witness :
    sub64 (Boundaries.stack_top ⟨[], 0, 100, 50⟩) (Boundaries.size ⟨[], 0, 100, 50⟩) =
      2 ^ 64 - (Boundaries.size ⟨[], 0, 100, 50⟩ - Boundaries.stack_top ⟨[], 0, 100, 50⟩) :=
  c9_underflow.1 ⟨[], 0, 100, 50⟩ (by decide) (by decide)

/-- C1, counterexample: a run that requires correction in which the second
candidate passed to the relinker is *larger* than the first and exceeds
`stack_top - size`: the first relink output overshoots `stack_top` by more
than the candidate, so `new_boundary -= end - stack_top` wraps around
`2 ^ 64`. -/
theorem c1_counterexample :
    noCollision wrapBd = false ∧
    runMain wrapLinker wrapBd 10 =
      ⟨[8448, 18446744073709495296], Outcome.success, false⟩ ∧
    ¬(18446744073709495296 ≤ wrapBd.stack_top - wrapBd.size) ∧
    ¬(strDescB [8448, 18446744073709495296] = true) :=
  ⟨by decide, by decide, by decide, by decide⟩

/-- C2, counterexample: the merged-name set is consumed in place across
retry iterations.  Here `.data` is validated in the first relink pass,
`.bss` triggers a recoverable retry (removing it from the set as well), and
the second pass output contains *no* sections at all — yet the run succeeds
instead of failing with the fatal-inconsistency error. -/
theorem c2_counterexample :
    ".data" ∈ vanishBd.merged_sections ∧
    runMain vanishLinker vanishBd 10 = ⟨[8448, 8440], Outcome.success, false⟩ ∧
    vanishLinker 1 8440 = LinkOut.elf [] :=
  ⟨by decide, by decide, by decide⟩

/-- C6, counterexample: a failing path after the first linker pass on which
the output file is *not* deleted: a relink failure returns the error with
`deleted = false`. -/
theorem c6_counterexample :
    runMain failLinker wrapBd 10 = ⟨[8448], Outcome.relinkFailure, false⟩ :=
  by decide

/-- C1, amended: in every run that requires correction, every candidate
passed to the relinker is a multiple of 8 and is bounded below by 0 —
unconditionally; provided additionally that every section of each relink
output ends at most `candidate` above `stack_top` (so the `u64` shift
`new_boundary -= end - stack_top` cannot underflow), successive candidates
strictly decrease and every candidate is at most
`stack_top - merged_region.size`. -/
theorem c1_amended (L : Nat → Nat → LinkOut) (bd : Boundaries) (fuel : Nat)
    (hreq : noCollision bd = false) :
    (∀ c ∈ (runMain L bd fuel).candidates, c % 8 = 0 ∧ 0 ≤ c) ∧
    (bd.stack_top < 2 ^ 64 →
      (∀ (j c : Nat) (secs : List SH), L j c = LinkOut.elf secs →
        ∀ s ∈ secs, s.addr + s.size ≤ bd.stack_top + c) →
      (∀ c ∈ (runMain L bd fuel).candidates, c ≤ bd.stack_top - bd.size) ∧
      strDescB (runMain L bd fuel).candidates = true) := by
  have hcol : bd.address + bd.size < bd.stack_top := by
    unfold noCollision at hreq
    simp at hreq
    exact hreq
  have hrw : runMain L bd fuel =
      runLoop L bd.stack_top fuel (sub64 bd.stack_top bd.size) bd.merged_sections 0 := by
    simp [runMain, hreq]
  rw [hrw]
  constructor
  · intro c hc
    exact ⟨runLoop_mod8 L bd.stack_top fuel _ _ _ c hc, Nat.zero_le c⟩
  · intro hst hL
    have hb0 : sub64 bd.stack_top bd.size = bd.stack_top - bd.size :=
      sub64_eq_sub hst (by omega)
    obtain ⟨hall, hdesc⟩ :=
      runLoop_desc L bd.stack_top hL fuel (sub64 bd.stack_top bd.size) bd.merged_sections 0
        (sub64_lt _ _)
    refine ⟨?_, hdesc⟩
    intro c hc
    have h1 := hall c hc
    have h2 := alignDown8_le (sub64 bd.stack_top bd.size)
    rw [hb0] at h1 h2
    omega

/-- Witness for C1 (amended): the unconditional part is exercised both on
the wrapping run (which violates the proviso) and on a well-behaved oracle
that always places `.bss` at the requested candidate, for which both
proviso-guarded conclusions are also discharged. -/
theorem c1_amended_witness :
    noCollision wrapBd = false ∧
    (∀ c ∈ (runMain wrapLinker wrapBd 10).candidates, c % 8 = 0 ∧ 0 ≤ c) ∧
    noCollision sampleBd = false ∧
    ((∀ c ∈ (runMain trackingLinker sampleBd 10).candidates, c % 8 = 0 ∧ 0 ≤ c) ∧
      ((∀ c ∈ (runMain trackingLinker sampleBd 10).candidates,
        c ≤ sampleBd.stack_top - sampleBd.size) ∧
        strDescB (runMain trackingLinker sampleBd 10).candidates = true)) := by
  refine ⟨by decide, (c1_amended wrapLinker wrapBd 10 (by decide)).1, by decide, ?_⟩
  have h := c1_amended trackingLinker sampleBd 10 (by decide)
  refine ⟨h.1, h.2 (by decide) ?_⟩
  intro j c secs hh s hs
  simp only [trackingLinker, LinkOut.elf.injEq] at hh
  rw [← hh] at hs
  rcases List.mem_singleton.mp hs with rfl
  simp [sampleBd]
  omega

/-- C2, amended: the merged-name set is consumed in place across retry
iterations, so the sanity check validates the set's remainder, not the full
original set, on each pass.  What holds on success is: every originally
accepted name was removed in some pass, i.e. it occurred in that pass's
decoded output with a start address at least that pass's candidate; the
`end <= stack_top` bound is only guaranteed for names whose check completed
without triggering a retry, and a name checked before a retry is never
re-examined against later outputs. -/
theorem c2_amended (L : Nat → Nat → LinkOut) (bd : Boundaries) (fuel : Nat)
    (hreq : noCollision bd = false)
    (hsucc : (runMain L bd fuel).outcome = Outcome.success) :
    ∀ n ∈ bd.merged_sections, ∃ (j c : Nat) (secs : List SH) (s : SH),
      (runMain L bd fuel).candidates.get? j = some c ∧
      L j c = LinkOut.elf secs ∧ s ∈ secs ∧ s.name = some n ∧ c ≤ s.addr := by
  have hrw : runMain L bd fuel =
      runLoop L bd.stack_top fuel (sub64 bd.stack_top bd.size) bd.merged_sections 0 := by
    simp [runMain, hreq]
  rw [hrw] at hsucc ⊢
  intro n hn
  obtain ⟨j, c, secs, s, hg, hLc, hs, hname, hcs⟩ :=
    runLoop_success_mem L bd.stack_top fuel _ _ 0 hsucc n hn
  exact ⟨j, c, secs, s, hg, by simpa using hLc, hs, hname, hcs⟩

/-- Witness for C2 (amended) on the converging sample run. -/
theorem c2_amended_witness :
    noCollision sampleBd = false ∧
    (runMain sampleLinker sampleBd 10).outcome = Outcome.success ∧
    (∀ n ∈ sampleBd.merged_sections, ∃ (j c : Nat) (secs : List SH) (s : SH),
      (runMain sampleLinker sampleBd 10).candidates.get? j = some c ∧
      sampleLinker j c = LinkOut.elf secs ∧ s ∈ secs ∧ s.name = some n ∧ c ≤ s.addr) :=
  ⟨by decide, by decide, c2_amended sampleLinker sampleBd 10 (by decide) (by decide)⟩

/-- C6, amended: the output file is deleted exactly on the
fatal-inconsistency path; relink failures and decode failures report the
error without cleaning up the output path.  In particular (second
conjunct) a second-pass output omitting an accepted section is the fatal
path: the file is deleted and the run fails. -/
theorem c6_amended :
    (∀ (L : Nat → Nat → LinkOut) (bd : Boundaries) (fuel : Nat),
      ((runMain L bd fuel).deleted = true ↔
        (runMain L bd fuel).outcome = Outcome.fatalInconsistency)) ∧
    runMain omitLinker wrapBd 10 = ⟨[8448], Outcome.fatalInconsistency, true⟩ := by
  constructor
  · intro L bd fuel
    unfold runMain
    split
    · simp
    · exact runLoop_deleted_iff L bd.stack_top fuel _ _ _
  · decide

/-- C8, counterexample: `get_boundaries` does not restrict itself to
allocatable sections.  A non-allocatable `.debug_info` header adjacent to
`.bss` is merged into the region and its name accepted. -/
theorem c8_counterexample :
    get_boundaries debugSections debugSyms =
      Except.ok ⟨[".bss", ".debug_info"], 0x2000, 0x110, 0x2400⟩ ∧
    (⟨some ".debug_info", 0x2100, 0x10, 1, false⟩ : SH) ∈ debugSections ∧
    (⟨some ".debug_info", 0x2100, 0x10, 1, false⟩ : SH).alloc = false :=
  ⟨rfl, by decide, by decide⟩

/-- C8, amended: the layout reader works on *all* section headers of the
binary: the by-address list it sorts and searches is a permutation of the
full header list, and the result of `get_boundaries` is invariant under
arbitrarily rewriting every header's `SHF_ALLOC` flag — the allocatable
flag is never consulted. -/
theorem c8_amended :
    (∀ shs : List SH, List.Perm (sortByAddr shs) shs) ∧
    (∀ (f : SH → Bool) (shs : List SH) (syms : List Sym),
      get_boundaries (shs.map (setAlloc f)) syms = get_boundaries shs syms) :=
  ⟨sortByAddr_perm, fun f shs syms => get_boundaries_map f shs syms⟩

/-- C4: whenever `get_boundaries` succeeds, the merged region it returns is
the one described by the specification's merger (seed at the anchor, global
maximum alignment, backward walk, then forward walk); the anchor is the
first section of the by-address order named `.bss` or `.data`; and
`max_align` bounds every section's alignment and is attained by one. -/
theorem c4_merger (shs : List SH) (syms : List Sym) (bd : Boundaries)
    (h : get_boundaries shs syms = Except.ok bd) :
    mergeSpec shs = some (bd.address, bd.size, bd.merged_sections) ∧
    (∀ (pre : List SH) (anchor : SH) (post : List SH),
      splitAtAnchor (sortByAddr shs) = some (pre, anchor, post) →
      isAnchor anchor = true ∧ (∀ s ∈ pre, isAnchor s = false) ∧
      sortByAddr shs = pre ++ anchor :: post) ∧
    (∀ s ∈ shs, s.align ≤ maxAligns (sortByAddr shs)) ∧
    (shs ≠ [] → ∃ s ∈ shs, maxAligns (sortByAddr shs) = s.align) := by
  refine ⟨?_, ?_, ?_, ?_⟩
  · unfold get_boundaries at h
    split at h
    · simp at h
    · rename_i pre anchor post hsplit
      split at h
      · simp at h
      · rename_i start total names hback
        split at h
        · simp at h
        · rename_i total2 names2 hfwd
          split at h
          · simp at h
          · rename_i st hsym
            simp only [Except.ok.injEq] at h
            subst h
            simp only [mergeSpec, hsplit, backWalk_toSpec _ _ _ _ _ _ hback,
              fwdWalk_toSpec _ _ _ _ _ _ hfwd]
  · intro pre anchor post hsp
    obtain ⟨h1, h2, h3⟩ := splitAtAnchor_sound (sortByAddr shs) pre anchor post hsp
    exact ⟨h2, h3, h1⟩
  · intro s hs
    exact maxAligns_le _ s ((sortByAddr_perm shs).mem_iff.mpr hs)
  · intro hne
    have hne' : sortByAddr shs ≠ [] := by
      intro h0
      have hperm := sortByAddr_perm shs
      rw [h0] at hperm
      exact hne hperm.symm.eq_nil
    obtain ⟨s, hs, he⟩ := maxAligns_attained _ hne'
    exact ⟨s, (sortByAddr_perm shs).mem_iff.mp hs, he⟩

/-- Witness for C4 on the sample layout. -/
theorem c4_merger_witness :
    get_boundaries sampleSections sampleSyms = Except.ok sampleBd ∧
    mergeSpec sampleSections =
      some (sampleBd.address, sampleBd.size, sampleBd.merged_sections) :=
  ⟨rfl, (c4_merger sampleSections sampleSyms sampleBd rfl).1⟩

end FlipLLD
